import Mathlib

/-!
Shallow embedding of the idl2rs translator (src/idl2rs/src/main.rs): the
AST builders (`*_from_pest`), the type resolver, the `camel_to_snake`
casing transform, and the renderers.  Rust strings are modelled as Lean
`String`; the character classification functions model the ASCII fragment
of Rust's `char::is_uppercase` / `char::to_lowercase` /
`eq_ignore_ascii_case` (IDL identifiers are ASCII).  The fallible
`assert_eq!(pair.as_rule(), ...)` guard at the head of every builder is
modelled by returning `Option`: `none` is the aborted process.
-/

namespace Idl2rs

/-- ASCII fragment of Rust `char::is_uppercase`. -/
def isUppercase (c : Char) : Bool := 65 ≤ c.toNat && c.toNat ≤ 90

/-- ASCII fragment of Rust `char::to_lowercase` (a single `char` result). -/
def toLowerChar (c : Char) : Char :=
  if isUppercase c then Char.ofNat (c.toNat + 32) else c

/-- Rust `u8::to_ascii_lowercase`, on chars. -/
def asciiLowerChar (c : Char) : Char := toLowerChar c

/-- Rust `str::eq_ignore_ascii_case`. -/
def eqIgnoreAsciiCase (a b : String) : Bool :=
  a.data.map asciiLowerChar == b.data.map asciiLowerChar

/-- Rust `str::starts_with("I")`: the first character is `I`. -/
def startsWithI (s : String) : Bool :=
  match s.data with
  | [] => false
  | c :: _ => c == 'I'

/-- The parse-rule vocabulary of the external grammar (enum `Rule`
generated by pest from idl.pest).  `other` stands for any production the
builders do not inspect. -/
inductive Rule where
  | document
  | interface
  | method
  | parameter
  | _type
  | identifier
  | pointer
  | _const
  | doc_comment
  | method_name
  | parameter_attribute
  | uuid
  | other_attribute
  | interface_name
  | parent
  | typedef_enum
  | typedef_struct
  | variant
  | field
  | other
deriving DecidableEq

/-- A pest parse-tree node: `rule` is `pair.as_rule()`, `text` is
`pair.as_str()`, `children` is `pair.into_inner()`. -/
inductive Node where
  | mk (rule : Rule) (text : String) (children : List Node)

def Node.rule : Node → Rule
  | .mk r _ _ => r

def Node.text : Node → String
  | .mk _ t _ => t

def Node.children : Node → List Node
  | .mk _ _ c => c

/-- `enum Modifier`. -/
inductive Modifier where
  | pointer
  | const
deriving DecidableEq

def Modifier.isPointer : Modifier → Bool
  | .pointer => true
  | .const => false

/-- `struct Type` (named `Ty` here because `Type` is reserved in Lean). -/
structure Ty where
  base_type : String
  modifiers : List Modifier
deriving DecidableEq

/-- One iteration of the child loop of `Type::from_pest`. -/
def tyStep (r : Ty) (p : Node) : Ty :=
  match p.rule with
  | .identifier =>
      if eqIgnoreAsciiCase p.text "int" then
        { r with base_type := "i32" }
      else if eqIgnoreAsciiCase p.text "double" then
        { r with base_type := "f64" }
      else if startsWithI p.text then
        { base_type := p.text ++ "VTable", modifiers := r.modifiers ++ [.pointer] }
      else
        { r with base_type := p.text }
  | .pointer => { r with modifiers := r.modifiers ++ [.pointer] }
  | ._const => { r with modifiers := r.modifiers ++ [.const] }
  | _ => r

/-- `Type::from_pest`: assert the node kind, fold the children, then
reverse the collected modifier list exactly once. -/
def Ty.from_pest (n : Node) : Option Ty :=
  if n.rule = ._type then
    let r := n.children.foldl tyStep ⟨"", []⟩
    some { r with modifiers := r.modifiers.reverse }
  else
    none

/-- Rust `str::trim_end_matches(" \t")` strips repeated occurrences of the
two-character pattern string from the end; this is the worker on the
reversed character list (the reversed pattern is tab-then-space). -/
def stripRev : List Char → List Char
  | c :: c2 :: rest =>
      if c = '\t' ∧ c2 = ' ' then stripRev rest else c :: c2 :: rest
  | l => l

/-- `s.trim_end_matches(" \t")` as the code applies it to doc comments. -/
def docTrim (s : String) : String :=
  ⟨(stripRev s.data.reverse).reverse⟩

/-- `struct Parameter`. -/
structure Parameter where
  attributes : List String
  type : Ty
  name : String
deriving DecidableEq

/-- One iteration of the child loop of `Parameter::from_pest`.  `none`
propagates the abort of a nested builder. -/
def paramStep (r : Parameter) (p : Node) : Option Parameter :=
  match p.rule with
  | .parameter_attribute => some { r with attributes := r.attributes ++ [p.text] }
  | ._type => (Ty.from_pest p).map (fun t => { r with type := t })
  | .identifier => some { r with name := p.text }
  | _ => some r

/-- `Parameter::from_pest`. -/
def Parameter.from_pest (n : Node) : Option Parameter :=
  if n.rule = .parameter then
    n.children.foldlM paramStep (⟨[], ⟨"", []⟩, ""⟩ : Parameter)
  else
    none

/-- `struct Method`. -/
structure Method where
  doc_comment : Option String
  return_type : Ty
  name : String
  parameters : List Parameter
deriving DecidableEq

/-- One iteration of the child loop of `Method::from_pest`. -/
def methodStep (r : Method) (p : Node) : Option Method :=
  match p.rule with
  | .doc_comment => some { r with doc_comment := some (docTrim p.text) }
  | ._type => (Ty.from_pest p).map (fun t => { r with return_type := t })
  | .method_name => some { r with name := p.text }
  | .parameter => (Parameter.from_pest p).map (fun q => { r with parameters := r.parameters ++ [q] })
  | _ => some r

/-- `Method::from_pest`. -/
def Method.from_pest (n : Node) : Option Method :=
  if n.rule = .method then
    n.children.foldlM methodStep (⟨none, ⟨"", []⟩, "", []⟩ : Method)
  else
    none

/-- `struct Variant`. -/
structure Variant where
  doc_comment : Option String
  name : String
deriving DecidableEq

/-- The inline construction of a `Variant` inside `TypedefEnum::from_pest`
(the block has no kind assertion of its own; it is only reached for
`Rule::variant` children). -/
def variantBuild (p : Node) : Variant :=
  p.children.foldl (fun v q =>
    match q.rule with
    | .doc_comment => { v with doc_comment := some (docTrim q.text) }
    | .identifier => { v with name := q.text }
    | _ => v) (⟨none, ""⟩ : Variant)

/-- `struct TypedefEnum`. -/
structure TypedefEnum where
  doc_comment : Option String
  name : String
  variants : List Variant
deriving DecidableEq

/-- One iteration of the child loop of `TypedefEnum::from_pest` (pure:
the variant is built inline, no nested kind assertion is reached). -/
def teStep (r : TypedefEnum) (p : Node) : TypedefEnum :=
  match p.rule with
  | .doc_comment => { r with doc_comment := some (docTrim p.text) }
  | .identifier => { r with name := p.text }
  | .variant => { r with variants := r.variants ++ [variantBuild p] }
  | _ => r

/-- `TypedefEnum::from_pest`. -/
def TypedefEnum.from_pest (n : Node) : Option TypedefEnum :=
  if n.rule = .typedef_enum then
    some (n.children.foldl teStep (⟨none, "", []⟩ : TypedefEnum))
  else
    none

/-- `struct Field`. -/
structure Field where
  doc_comment : Option String
  name : String
  type : Ty
deriving DecidableEq

/-- One iteration of the child loop of `Field::from_pest`. -/
def fieldStep (r : Field) (p : Node) : Option Field :=
  match p.rule with
  | .doc_comment => some { r with doc_comment := some (docTrim p.text) }
  | ._type => (Ty.from_pest p).map (fun t => { r with type := t })
  | .identifier => some { r with name := p.text }
  | _ => some r

/-- `Field::from_pest`. -/
def Field.from_pest (n : Node) : Option Field :=
  if n.rule = .field then
    n.children.foldlM fieldStep (⟨none, "", ⟨"", []⟩⟩ : Field)
  else
    none

/-- `struct TypedefStruct`. -/
structure TypedefStruct where
  doc_comment : Option String
  name : String
  fields : List Field
deriving DecidableEq

/-- One iteration of the child loop of `TypedefStruct::from_pest`. -/
def tsStep (r : TypedefStruct) (p : Node) : Option TypedefStruct :=
  match p.rule with
  | .doc_comment => some { r with doc_comment := some (docTrim p.text) }
  | .identifier => some { r with name := p.text }
  | .field => (Field.from_pest p).map (fun f => { r with fields := r.fields ++ [f] })
  | _ => some r

/-- `TypedefStruct::from_pest`. -/
def TypedefStruct.from_pest (n : Node) : Option TypedefStruct :=
  if n.rule = .typedef_struct then
    n.children.foldlM tsStep (⟨none, "", []⟩ : TypedefStruct)
  else
    none

/-- `struct Interface`. -/
structure Interface where
  doc_comment : Option String
  name : String
  parent : String
  uuid : Option String
  attributes : List String
  enums : List TypedefEnum
  structs : List TypedefStruct
  methods : List Method
deriving DecidableEq

/-- One iteration of the child loop of `Interface::from_pest`. -/
def ifaceStep (r : Interface) (p : Node) : Option Interface :=
  match p.rule with
  | .doc_comment => some { r with doc_comment := some (docTrim p.text) }
  | .uuid => some { r with uuid := some p.text }
  | .other_attribute => some { r with attributes := r.attributes ++ [p.text] }
  | .interface_name => some { r with name := p.text }
  | .parent => some { r with parent := p.text }
  | .method => (Method.from_pest p).map (fun m => { r with methods := r.methods ++ [m] })
  | .typedef_enum => (TypedefEnum.from_pest p).map (fun e => { r with enums := r.enums ++ [e] })
  | .typedef_struct => (TypedefStruct.from_pest p).map (fun s => { r with structs := r.structs ++ [s] })
  | _ => some r

/-- `Interface::from_pest`. -/
def Interface.from_pest (n : Node) : Option Interface :=
  if n.rule = .interface then
    n.children.foldlM ifaceStep (⟨none, "", "", none, [], [], [], []⟩ : Interface)
  else
    none

/-- `struct Document`. -/
structure Document where
  interfaces : List Interface
deriving DecidableEq

/-- One iteration of the child loop of `Document::from_pest`. -/
def docStep (r : Document) (p : Node) : Option Document :=
  match p.rule with
  | .interface => (Interface.from_pest p).map (fun i => { r with interfaces := r.interfaces ++ [i] })
  | _ => some r

/-- `Document::from_pest`. -/
def Document.from_pest (n : Node) : Option Document :=
  if n.rule = .document then
    n.children.foldlM docStep (⟨[]⟩ : Document)
  else
    none

/-- `fn camel_to_snake`: one loop iteration, state is
(seen_lowercase, output so far). -/
def camelStep (st : Bool × List Char) (c : Char) : Bool × List Char :=
  if isUppercase c then
    (false, st.2 ++ (if st.1 then ['_'] else []) ++ [toLowerChar c])
  else if c = '_' then
    (false, st.2 ++ [c])
  else
    (true, st.2 ++ [c])

/-- `fn camel_to_snake`. -/
def camel_to_snake (input : String) : String :=
  ⟨(input.data.foldl camelStep (false, [])).2⟩

/-! Renderers.  Each Rust `render` writes to an `impl Write`; the writer
is modelled as the string accumulated so far, threaded explicitly, so a
render function maps the prior output `acc` to the output after the call. -/

/-- `Type::render`: one `*mut ` per Pointer modifier, then the base type. -/
def Ty.render (t : Ty) (acc : String) : String :=
  (t.modifiers.foldl (fun a m =>
    match m with
    | .pointer => a ++ "*mut "
    | .const => a) acc) ++ t.base_type

/-- `Parameter::render`. -/
def Parameter.render (p : Parameter) (acc : String) : String :=
  p.type.render ((if p.attributes.isEmpty then acc
    else acc ++ "/* " ++ String.intercalate ", " p.attributes ++ " */ ") ++ p.name ++ ": ")

/-- The body of the parameter loop of `Method::render`: a comma-space,
then the parameter. -/
def commaStep (a : String) (p : Parameter) : String :=
  p.render (a ++ ", ")

/-- `Method::render`. -/
def Method.render (m : Method) (acc : String) : String :=
  (m.return_type.render
    ((m.parameters.foldl commaStep
      (acc ++ m.doc_comment.getD "" ++ "    unsafe fn " ++ camel_to_snake m.name ++
        "(&self")) ++ ") -> ")) ++ ";\n"

/-- The body of the variant loop of `TypedefEnum::render`. -/
def variantStep (a : String) (v : Variant) : String :=
  a ++ v.doc_comment.getD "" ++ "    " ++ v.name ++ ",\n"

/-- `TypedefEnum::render`. -/
def TypedefEnum.render (e : TypedefEnum) (acc : String) : String :=
  (e.variants.foldl variantStep
    (acc ++ e.doc_comment.getD "" ++ "#[repr(u32)]\n" ++ "pub enum " ++ e.name ++
      " \x7b\n")) ++ "\x7d\n"

/-- The body of the field loop of `TypedefStruct::render`. -/
def fieldLineStep (a : String) (f : Field) : String :=
  (f.type.render (a ++ f.doc_comment.getD "" ++ "    " ++ f.name ++ ": ")) ++ ",\n"

/-- `TypedefStruct::render`. -/
def TypedefStruct.render (s : TypedefStruct) (acc : String) : String :=
  (s.fields.foldl fieldLineStep
    (acc ++ s.doc_comment.getD "" ++ "#[repr(C)]\n" ++ "pub struct " ++ s.name ++
      " \x7b\n")) ++ "\x7d\n"

/-- The `first`-flag loop body shared by `Interface::render` (over
methods) and `Document::render` (over interfaces): a blank line is
written before every element but the first. -/
def sepStep {α : Type} (g : α → String → String) (st : Bool × String) (x : α) :
    Bool × String :=
  (false, g x (if st.1 then st.2 else st.2 ++ "\n"))

/-- The loop body writing a blank line and then a nested declaration,
used for the enums and structs of `Interface::render`. -/
def blankLineStep {α : Type} (g : α → String → String) (a : String) (x : α) : String :=
  g x (a ++ "\n")

/-- `Interface::render`. -/
def Interface.render (i : Interface) (acc : String) : String :=
  i.structs.foldl (blankLineStep TypedefStruct.render)
    (i.enums.foldl (blankLineStep TypedefEnum.render)
      (((i.methods.foldl (sepStep Method.render)
        (true, acc ++ i.doc_comment.getD "" ++ (match i.uuid with
          | some u => "#[com_interface(\"" ++ u ++ "\")]\n"
          | none => "") ++ "pub trait " ++ i.name ++ ": " ++ i.parent ++
          " \x7b\n")).2) ++ "\x7d\n"))

/-- `Document::render`. -/
def Document.render (d : Document) (acc : String) : String :=
  (d.interfaces.foldl (sepStep Interface.render) (true, acc)).2

/-! Auxiliary definitions used to state and prove the claims. -/

/-- The base-identifier resolution of `Type::from_pest`, as a function of
the identifier text alone. -/
def resolveBase (s : String) : String :=
  if eqIgnoreAsciiCase s "int" then "i32"
  else if eqIgnoreAsciiCase s "double" then "f64"
  else if startsWithI s then s ++ "VTable"
  else s

/-- The effect of one type-node child on the collected base type. -/
def baseStep (b : String) (p : Node) : String :=
  if p.rule = .identifier then resolveBase p.text else b

/-- Whether an identifier triggers the implicit interface-pointer rule of
`Type::from_pest`. -/
def triggersInterface (s : String) : Bool :=
  !eqIgnoreAsciiCase s "int" && !eqIgnoreAsciiCase s "double" && startsWithI s

/-- The modifier (if any) that one child of a type node contributes in
`Type::from_pest`. -/
def modOf (p : Node) : Option Modifier :=
  match p.rule with
  | .identifier => if triggersInterface p.text then some .pointer else none
  | .pointer => some .pointer
  | ._const => some .const
  | _ => none

/-- Modelled from the spec: the shape of a type parse node produced by the
external grammar (idl.pest is not among the sources; only the builders
are).  Per the spec a type node contains a base identifier plus zero or
more pointer/const modifier nodes in source declaration order; in the
C-like IDL the const qualifiers precede the base identifier and the
pointer markers follow it. -/
def typeNodeShaped (t s : String) (m k : Nat) : Node :=
  .mk ._type t
    (List.replicate m (.mk ._const "const" []) ++
      .mk .identifier s [] :: List.replicate k (.mk .pointer "*" []))

/-- The claim C2 reading of the doc-comment trim: remove ALL trailing
horizontal whitespace characters (spaces and tabs in any combination). -/
def rtrimHWS (s : String) : String :=
  ⟨(s.data.reverse.dropWhile (fun c => c == ' ' || c == '\t')).reverse⟩

/-- `k` copies of the two-character sequence space-then-tab. -/
def pairRepeat : Nat → List Char
  | 0 => []
  | k + 1 => pairRepeat k ++ [' ', '\t']

/-- `k` copies of the reversed two-character sequence (tab-then-space). -/
def revPair : Nat → List Char
  | 0 => []
  | k + 1 => '\t' :: ' ' :: revPair k

/-- `n` pointer markers. -/
def ptrMarks : Nat → String
  | 0 => ""
  | n + 1 => "*mut " ++ ptrMarks n

/-- Claim C3's state, recovered from the previous character alone: the
transform is "in a lowercase run" exactly when the previous character
exists and is neither uppercase nor the separator. -/
def lowerRunPrev : Option Char → Bool
  | none => false
  | some p => !isUppercase p && p != '_'

/-- The casing transform as described by claim C3: a stateless pass that
emits a separator exactly at a transition from an in-lowercase-run
character into an uppercase character, lowercases uppercase characters
and leaves every other character unchanged. -/
def snakeSpecGo : Option Char → List Char → List Char
  | _, [] => []
  | prev, c :: rest =>
      (if isUppercase c && lowerRunPrev prev then ['_'] else []) ++
      (if isUppercase c then [toLowerChar c] else [c]) ++
      snakeSpecGo (some c) rest

/-- The claim C3 description of the casing transform, as a whole-string
function. -/
def snakeSpec (s : String) : String :=
  ⟨snakeSpecGo none s.data⟩

/-! Theorems. -/

theorem toNat_ofNat_valid (n : Nat) (h : n.isValidChar) : (Char.ofNat n).toNat = n := by
  simp [Char.ofNat, dif_pos h, Char.ofNatAux, Char.toNat, UInt32.toNat, BitVec.toNat_ofNatLt]

theorem isUppercase_iff {c : Char} : isUppercase c = true ↔ 65 ≤ c.toNat ∧ c.toNat ≤ 90 := by
  unfold isUppercase
  simp

theorem toLowerChar_not_upper (c : Char) : isUppercase (toLowerChar c) = false := by
  by_cases h : isUppercase c
  · have hb := isUppercase_iff.mp h
    have hv : (c.toNat + 32).isValidChar := by
      left
      omega
    rw [toLowerChar, if_pos h]
    rw [Bool.eq_false_iff]
    intro hc
    have h90 := isUppercase_iff.mp hc
    rw [toNat_ofNat_valid _ hv] at h90
    omega
  · rw [toLowerChar, if_neg h]
    simpa using h

theorem camel_fold_spec (l : List Char) :
    ∀ (b : Bool) (prev : Option Char) (acc : List Char), b = lowerRunPrev prev →
      (l.foldl camelStep (b, acc)).2 = acc ++ snakeSpecGo prev l := by
  induction l with
  | nil =>
    intro b prev acc _
    simp [snakeSpecGo]
  | cons c rest ih =>
    intro b prev acc hb
    rw [List.foldl_cons]
    by_cases hu : isUppercase c
    · have hstep : camelStep (b, acc) c
          = (false, acc ++ (if b then ['_'] else []) ++ [toLowerChar c]) := by
        unfold camelStep
        rw [if_pos hu]
      have hprev : (false : Bool) = lowerRunPrev (some c) := by
        simp [lowerRunPrev, hu]
      rw [hstep, ih false (some c) _ hprev]
      simp only [snakeSpecGo, hu, hb, Bool.true_and]
      cases hl : lowerRunPrev prev <;> simp [List.append_assoc]
    · by_cases he : c = '_'
      · have hstep : camelStep (b, acc) c = (false, acc ++ [c]) := by
          unfold camelStep
          rw [if_neg hu, if_pos he]
        have hprev : (false : Bool) = lowerRunPrev (some c) := by
          simp [lowerRunPrev, he]
        rw [hstep, ih false (some c) _ hprev]
        simp [snakeSpecGo, hu, List.append_assoc]
      · have hstep : camelStep (b, acc) c = (true, acc ++ [c]) := by
          unfold camelStep
          rw [if_neg hu, if_neg he]
        have hprev : (true : Bool) = lowerRunPrev (some c) := by
          simp [lowerRunPrev, hu, he]
        rw [hstep, ih true (some c) _ hprev]
        simp [snakeSpecGo, hu, List.append_assoc]

theorem camel_eq_snakeSpec (s : String) : camel_to_snake s = snakeSpec s := by
  unfold camel_to_snake snakeSpec
  have h := camel_fold_spec s.data false none [] (by simp [lowerRunPrev])
  rw [h]
  simp

/-- Claim C3: the casing transform emits a separator only at a transition from a
non-uppercase character into an uppercase character (the emission guard
`lowerRunPrev` requires the previous character to be non-uppercase),
lowercases uppercase letters and leaves other characters unchanged, as
captured by the stateless description `snakeSpec`; and it maps "GetCount"
to "get_count", "GetWebView2Settings" to "get_web_view2_settings" and
"ABCdef" to "abcdef". -/
theorem camel_to_snake_matches_spec :
    (∀ s : String, camel_to_snake s = snakeSpec s) ∧
    (∀ p : Char, lowerRunPrev (some p) = true → isUppercase p = false) ∧
    camel_to_snake "GetCount" = "get_count" ∧
    camel_to_snake "GetWebView2Settings" = "get_web_view2_settings" ∧
    camel_to_snake "ABCdef" = "abcdef" := by
  refine ⟨camel_eq_snakeSpec, ?_, by decide, by decide, by decide⟩
  intro p hp
  unfold lowerRunPrev at hp
  exact (Bool.and_eq_true_iff.mp hp).1 |> fun h => by simpa using h

theorem c3_separator_guard_witness :
    lowerRunPrev (some 'a') = true ∧ isUppercase 'a' = false :=
  ⟨by decide, camel_to_snake_matches_spec.2.1 'a' (by decide)⟩

theorem camel_fold_id (l : List Char) (h : ∀ c ∈ l, isUppercase c = false) :
    ∀ (b : Bool) (acc : List Char), (l.foldl camelStep (b, acc)).2 = acc ++ l := by
  induction l with
  | nil =>
    intro b acc
    simp
  | cons c rest ih =>
    intro b acc
    have hc : isUppercase c = false := h c (by simp)
    have hrest : ∀ c ∈ rest, isUppercase c = false := fun x hx => h x (by simp [hx])
    rw [List.foldl_cons]
    by_cases he : c = '_'
    · have hstep : camelStep (b, acc) c = (false, acc ++ [c]) := by
        unfold camelStep
        rw [if_neg (by simp [hc]), if_pos he]
      rw [hstep, ih hrest false (acc ++ [c])]
      simp
    · have hstep : camelStep (b, acc) c = (true, acc ++ [c]) := by
        unfold camelStep
        rw [if_neg (by simp [hc]), if_neg he]
      rw [hstep, ih hrest true (acc ++ [c])]
      simp

theorem camel_fold_no_upper (l : List Char) :
    ∀ (b : Bool) (out : List Char), (∀ c ∈ out, isUppercase c = false) →
      ∀ c ∈ (l.foldl camelStep (b, out)).2, isUppercase c = false := by
  induction l with
  | nil =>
    intro b out hst c hc
    exact hst c hc
  | cons x rest ih =>
    intro b out hst
    rw [List.foldl_cons]
    by_cases hu : isUppercase x
    · cases b
      · have hs : camelStep (false, out) x = (false, out ++ [toLowerChar x]) := by
          simp [camelStep, hu]
        rw [hs]
        apply ih
        intro c hc
        simp at hc
        rcases hc with hc | rfl
        · exact hst c hc
        · exact toLowerChar_not_upper x
      · have hs : camelStep (true, out) x = (false, out ++ ['_'] ++ [toLowerChar x]) := by
          simp [camelStep, hu]
        rw [hs]
        apply ih
        intro c hc
        simp at hc
        rcases hc with hc | rfl | rfl
        · exact hst c hc
        · decide
        · exact toLowerChar_not_upper x
    · by_cases he : x = '_'
      · have hs : camelStep (b, out) x = (false, out ++ [x]) := by
          unfold camelStep
          rw [if_neg (by simpa using hu), if_pos he]
        rw [hs]
        apply ih
        intro c hc
        simp at hc
        rcases hc with hc | rfl
        · exact hst c hc
        · simpa using hu
      · have hs : camelStep (b, out) x = (true, out ++ [x]) := by
          unfold camelStep
          rw [if_neg (by simpa using hu), if_neg he]
        rw [hs]
        apply ih
        intro c hc
        simp at hc
        rcases hc with hc | rfl
        · exact hst c hc
        · simpa using hu

/-- Claim C7: the casing transform is the identity on strings with no uppercase
characters, and is therefore idempotent on every input. -/
theorem camel_to_snake_idempotent :
    (∀ s : String, (∀ c ∈ s.data, isUppercase c = false) → camel_to_snake s = s) ∧
    (∀ s : String, camel_to_snake (camel_to_snake s) = camel_to_snake s) := by
  have hid : ∀ s : String, (∀ c ∈ s.data, isUppercase c = false) → camel_to_snake s = s := by
    intro s hs
    unfold camel_to_snake
    rw [camel_fold_id s.data hs false []]
    simp
  refine ⟨hid, ?_⟩
  intro s
  apply hid
  intro c hc
  have hm : c ∈ (s.data.foldl camelStep (false, [])).2 := by
    simpa [camel_to_snake] using hc
  exact camel_fold_no_upper s.data false [] (by simp) c hm

theorem c7_identity_witness : camel_to_snake "get_count2" = "get_count2" :=
  camel_to_snake_idempotent.1 "get_count2" (by decide)

theorem tyStep_modifiers (r : Ty) (p : Node) :
    (tyStep r p).modifiers = r.modifiers ++ (modOf p).toList := by
  unfold tyStep modOf triggersInterface
  cases p.rule <;> simp
  by_cases h1 : eqIgnoreAsciiCase p.text "int"
  · simp [h1]
  · by_cases h2 : eqIgnoreAsciiCase p.text "double"
    · simp [h1, h2]
    · by_cases h3 : startsWithI p.text <;> simp [h1, h2, h3]

theorem tyStep_base (r : Ty) (p : Node) :
    (tyStep r p).base_type = baseStep r.base_type p := by
  unfold tyStep baseStep resolveBase
  cases p.rule <;> simp
  by_cases h1 : eqIgnoreAsciiCase p.text "int"
  · simp [h1]
  · by_cases h2 : eqIgnoreAsciiCase p.text "double"
    · simp [h1, h2]
    · by_cases h3 : startsWithI p.text <;> simp [h1, h2, h3]

theorem tyFold_modifiers (ch : List Node) :
    ∀ r : Ty, (ch.foldl tyStep r).modifiers = r.modifiers ++ ch.filterMap modOf := by
  induction ch with
  | nil =>
    intro r
    simp
  | cons p ch ih =>
    intro r
    rw [List.foldl_cons, ih, tyStep_modifiers r p, List.filterMap_cons]
    cases h : modOf p <;> simp [h]

theorem tyFold_base (ch : List Node) :
    ∀ r : Ty, (ch.foldl tyStep r).base_type = ch.foldl baseStep r.base_type := by
  induction ch with
  | nil =>
    intro r
    simp
  | cons p ch ih =>
    intro r
    rw [List.foldl_cons, List.foldl_cons, ih, tyStep_base r p]

theorem from_pest_type_eq (n : Node) (h : n.rule = ._type) :
    Ty.from_pest n
      = some ⟨n.children.foldl baseStep "", (n.children.filterMap modOf).reverse⟩ := by
  unfold Ty.from_pest
  rw [if_pos h]
  show some (Ty.mk (n.children.foldl tyStep ⟨"", []⟩).base_type
      (n.children.foldl tyStep ⟨"", []⟩).modifiers.reverse) = _
  rw [tyFold_base, tyFold_modifiers]
  simp

theorem filterMap_replicate_some {α β : Type} {f : α → Option β} {a : α} {b : β}
    (h : f a = some b) (n : Nat) :
    (List.replicate n a).filterMap f = List.replicate n b := by
  induction n with
  | zero => simp
  | succ n ih => simp [List.replicate_succ, List.filterMap_cons, h, ih]

theorem baseStep_skip {p : Node} (h : p.rule ≠ .identifier) (b : String) :
    baseStep b p = b := by
  unfold baseStep
  rw [if_neg h]

theorem baseFold_replicate_skip (q : Node) (hq : q.rule ≠ .identifier) (n : Nat) :
    ∀ b : String, (List.replicate n q).foldl baseStep b = b := by
  induction n with
  | zero =>
    intro b
    simp
  | succ n ih =>
    intro b
    rw [List.replicate_succ, List.foldl_cons, baseStep_skip hq, ih]

theorem head?_replicate_append {α : Type} (a : α) (n : Nat) (l : List α) :
    (List.replicate n a ++ a :: l).head? = some a := by
  cases n <;> simp [List.replicate_succ]

/-- Claim C1 (spec-modelled grammar shape): a type node whose base identifier
starts with uppercase I and is not a case-insensitive spelling of int or
double resolves to the synthesized base name with the VTable suffix, and
its final (post-reversal) modifier list starts with a Pointer and
contains at least one Pointer. -/
theorem interface_ref_resolves_to_vtable_pointer (s t : String) (m k : Nat)
    (h1 : startsWithI s = true) (h2 : eqIgnoreAsciiCase s "int" = false)
    (h3 : eqIgnoreAsciiCase s "double" = false) :
    (Ty.from_pest (typeNodeShaped t s m k)).map Ty.base_type = some (s ++ "VTable") ∧
    ∃ mods : List Modifier,
      (Ty.from_pest (typeNodeShaped t s m k)).map Ty.modifiers = some mods ∧
      mods.head? = some Modifier.pointer ∧ Modifier.pointer ∈ mods := by
  have hident : modOf (.mk .identifier s []) = some Modifier.pointer := by
    unfold modOf triggersInterface
    simp [Node.rule, Node.text, h1, h2, h3]
  have hconst : modOf (.mk ._const "const" []) = some Modifier.const := rfl
  have hres : resolveBase s = s ++ "VTable" := by
    unfold resolveBase
    simp [h1, h2, h3]
  rw [from_pest_type_eq (typeNodeShaped t s m k) rfl]
  have hch : (typeNodeShaped t s m k).children
      = List.replicate m (.mk ._const "const" []) ++
        .mk .identifier s [] :: List.replicate k (.mk .pointer "*" []) := rfl
  rw [hch]
  have hbase : (List.replicate m (Node.mk ._const "const" []) ++
      Node.mk .identifier s [] :: List.replicate k (Node.mk .pointer "*" [])).foldl
      baseStep "" = s ++ "VTable" := by
    rw [List.foldl_append, baseFold_replicate_skip _ (by decide) m, List.foldl_cons,
      baseFold_replicate_skip _ (by decide) k,
      show baseStep "" (Node.mk .identifier s []) = resolveBase s from if_pos rfl]
    exact hres
  constructor
  · simp [hbase]
  · refine ⟨List.replicate k Modifier.pointer ++
      Modifier.pointer :: List.replicate m Modifier.const, ?_, ?_, ?_⟩
    · rw [List.filterMap_append, List.filterMap_cons,
        filterMap_replicate_some hconst m, hident,
        filterMap_replicate_some (show modOf (.mk .pointer "*" []) = some .pointer from rfl) k]
      simp [List.reverse_append]
    · rw [head?_replicate_append]
    · simp

theorem c1_witness :
    startsWithI "IStream" = true ∧ eqIgnoreAsciiCase "IStream" "int" = false ∧
    ((Ty.from_pest (typeNodeShaped "" "IStream" 1 1)).map Ty.base_type
        = some ("IStream" ++ "VTable") ∧
      ∃ mods : List Modifier,
        (Ty.from_pest (typeNodeShaped "" "IStream" 1 1)).map Ty.modifiers = some mods ∧
        mods.head? = some Modifier.pointer ∧ Modifier.pointer ∈ mods) :=
  ⟨by decide, by decide,
    interface_ref_resolves_to_vtable_pointer "IStream" "" 1 1 (by decide) (by decide)
      (by decide)⟩

/-- Claim C5: every case-insensitive spelling of "int" resolves to base type
`i32` with an empty modifier list when the type node carries no explicit
modifier tokens: rule 1 takes priority over the interface-reference
rule. -/
theorem int_spelling_resolves_to_i32 (s t : String)
    (h : eqIgnoreAsciiCase s "int" = true) :
    Ty.from_pest (.mk ._type t [.mk .identifier s []]) = some ⟨"i32", []⟩ := by
  rw [from_pest_type_eq (.mk ._type t [.mk .identifier s []]) rfl]
  simp [Node.children, Node.rule, Node.text, baseStep, resolveBase, modOf,
    triggersInterface, h]

theorem c5_witness :
    eqIgnoreAsciiCase "INT" "int" = true ∧ eqIgnoreAsciiCase "Int" "int" = true ∧
    startsWithI "INT" = true ∧
    Ty.from_pest (.mk ._type "" [.mk .identifier "INT" []]) = some ⟨"i32", []⟩ ∧
    Ty.from_pest (.mk ._type "" [.mk .identifier "Int" []]) = some ⟨"i32", []⟩ :=
  ⟨by decide, by decide, by decide,
    int_spelling_resolves_to_i32 "INT" "" (by decide),
    int_spelling_resolves_to_i32 "Int" "" (by decide)⟩

theorem filterMap_modOf_pointers (ch : List Node)
    (hc : ∀ p ∈ ch, p.rule ≠ ._const)
    (hi : ∀ p ∈ ch, p.rule = .identifier → triggersInterface p.text = false) :
    ch.filterMap modOf
      = List.replicate (ch.countP (fun p => decide (p.rule = .pointer)))
          Modifier.pointer := by
  induction ch with
  | nil => simp
  | cons p ch ih =>
    have hmod : modOf p = if p.rule = .pointer then some Modifier.pointer else none := by
      unfold modOf
      cases hr : p.rule <;> simp
      · exact hi p (by simp) hr
      · exact absurd hr (hc p (by simp))
    rw [List.filterMap_cons, hmod, List.countP_cons]
    have ih2 := ih (fun q hq => hc q (by simp [hq])) (fun q hq => hi q (by simp [hq]))
    by_cases hp : p.rule = .pointer
    · simp [hp, ih2, List.replicate_succ]
    · have hcp : p.rule ≠ ._const := hc p (by simp)
      simp [hp, ih2]

/-- Claim C4: a type node with exactly two explicit pointer tokens, no const
tokens and a base identifier that does not trigger the implicit
interface-pointer rule resolves to a modifier list of exactly two
Pointers, and rendering emits exactly two pointer markers before the base
type name, outermost first. -/
theorem two_pointers_resolve_and_render (t : String) (ch : List Node)
    (h2 : ch.countP (fun p => decide (p.rule = .pointer)) = 2)
    (hc : ∀ p ∈ ch, p.rule ≠ ._const)
    (hi : ∀ p ∈ ch, p.rule = .identifier → triggersInterface p.text = false) :
    (Ty.from_pest (.mk ._type t ch)).map Ty.modifiers
        = some [Modifier.pointer, Modifier.pointer] ∧
    ∀ ty : Ty, Ty.from_pest (.mk ._type t ch) = some ty →
      ∀ acc : String, ty.render acc = acc ++ "*mut *mut " ++ ty.base_type := by
  rw [from_pest_type_eq (.mk ._type t ch) rfl]
  have hmods : (List.filterMap modOf ch).reverse = [Modifier.pointer, Modifier.pointer] := by
    rw [filterMap_modOf_pointers ch hc hi, h2]
    rfl
  constructor
  · simp [Node.children, hmods]
  · intro ty hty acc
    rw [show Node.children (.mk ._type t ch) = ch from rfl, hmods] at hty
    have h := Option.some.inj hty
    subst h
    show ((acc ++ "*mut ") ++ "*mut ") ++ _ = _
    rw [String.append_assoc acc, show ("*mut " ++ "*mut " : String) = "*mut *mut " by rfl]

theorem c4_witness :
    ((Ty.from_pest (.mk ._type ""
        [.mk .identifier "HWND" [], .mk .pointer "*" [], .mk .pointer "*" []])).map
        Ty.modifiers = some [Modifier.pointer, Modifier.pointer]) ∧
    ∀ ty : Ty, Ty.from_pest (.mk ._type ""
        [.mk .identifier "HWND" [], .mk .pointer "*" [], .mk .pointer "*" []]) = some ty →
      ∀ acc : String, ty.render acc = acc ++ "*mut *mut " ++ ty.base_type :=
  two_pointers_resolve_and_render ""
    [.mk .identifier "HWND" [], .mk .pointer "*" [], .mk .pointer "*" []]
    (by decide) (by decide) (by decide)

theorem render_fold_marks (mods : List Modifier) :
    ∀ acc : String,
      mods.foldl (fun a m => match m with | .pointer => a ++ "*mut " | .const => a) acc
        = acc ++ ptrMarks (mods.countP (fun m => m.isPointer)) := by
  induction mods with
  | nil =>
    intro acc
    simp [ptrMarks]
  | cons m mods ih =>
    intro acc
    cases m
    · have hcnt : List.countP (fun m => m.isPointer) (Modifier.pointer :: mods)
          = List.countP (fun m => m.isPointer) mods + 1 := by
        simp [List.countP_cons, Modifier.isPointer]
      rw [List.foldl_cons, hcnt]
      show List.foldl _ (acc ++ "*mut ") mods = _
      rw [ih (acc ++ "*mut "),
        show ∀ n, ptrMarks (n + 1) = "*mut " ++ ptrMarks n from fun n => rfl,
        String.append_assoc]
    · have hcnt : List.countP (fun m => m.isPointer) (Modifier.const :: mods)
          = List.countP (fun m => m.isPointer) mods := by
        simp [List.countP_cons, Modifier.isPointer]
      rw [List.foldl_cons, hcnt]
      show List.foldl _ acc mods = _
      exact ih acc

/-- Claim C6: rendering a Type emits one raw-pointer marker per Pointer
modifier, in modifier-list order, followed by the base type name; Const
modifiers contribute no output, so two Types that agree on the base type
and on their Pointer modifiers render identically. -/
theorem render_marks_and_const_ignored :
    (∀ (ty : Ty) (acc : String),
      ty.render acc
        = acc ++ ptrMarks (ty.modifiers.countP (fun m => m.isPointer)) ++ ty.base_type) ∧
    (∀ (t₁ t₂ : Ty) (acc : String), t₁.base_type = t₂.base_type →
      t₁.modifiers.filter (fun m => m.isPointer)
        = t₂.modifiers.filter (fun m => m.isPointer) →
      t₁.render acc = t₂.render acc) := by
  have h1 : ∀ (ty : Ty) (acc : String),
      ty.render acc
        = acc ++ ptrMarks (ty.modifiers.countP (fun m => m.isPointer)) ++ ty.base_type := by
    intro ty acc
    unfold Ty.render
    rw [render_fold_marks ty.modifiers acc]
  refine ⟨h1, ?_⟩
  intro t₁ t₂ acc hb hf
  rw [h1, h1, hb, List.countP_eq_length_filter, List.countP_eq_length_filter, hf]

theorem c6_witness :
    Ty.render ⟨"i32", [Modifier.const]⟩ "" = Ty.render ⟨"i32", []⟩ "" :=
  render_marks_and_const_ignored.2 ⟨"i32", [Modifier.const]⟩ ⟨"i32", []⟩ "" rfl
    (by decide)

theorem stripRev_decomp_aux :
    ∀ (n : Nat) (l : List Char), l.length ≤ n → ∃ k, l = revPair k ++ stripRev l := by
  intro n
  induction n with
  | zero =>
    intro l hl
    have hnil : l = [] := List.eq_nil_of_length_eq_zero (Nat.le_zero.mp hl)
    subst hnil
    exact ⟨0, by simp [stripRev, revPair]⟩
  | succ n ih =>
    intro l hl
    rcases l with _ | ⟨c, l'⟩
    · exact ⟨0, by simp [stripRev, revPair]⟩
    rcases l' with _ | ⟨c2, rest⟩
    · exact ⟨0, by simp [stripRev, revPair]⟩
    by_cases hc : c = '\t' ∧ c2 = ' '
    · obtain ⟨rfl, rfl⟩ := hc
      have hs : stripRev ('\t' :: ' ' :: rest) = stripRev rest := by
        simp [stripRev]
      obtain ⟨k, hk⟩ := ih rest (by simp at hl; omega)
      refine ⟨k + 1, ?_⟩
      rw [hs]
      show '\t' :: ' ' :: rest = ('\t' :: ' ' :: revPair k) ++ stripRev rest
      simp only [List.cons_append]
      rw [← hk]
    · have hs : stripRev (c :: c2 :: rest) = c :: c2 :: rest := by
        simp [stripRev, hc]
      exact ⟨0, by rw [hs]; simp [revPair]⟩

theorem stripRev_no_pair :
    ∀ (n : Nat) (l : List Char), l.length ≤ n →
      ∀ u : List Char, stripRev l ≠ '\t' :: ' ' :: u := by
  intro n
  induction n with
  | zero =>
    intro l hl u
    have hnil : l = [] := List.eq_nil_of_length_eq_zero (Nat.le_zero.mp hl)
    subst hnil
    simp [stripRev]
  | succ n ih =>
    intro l hl u
    rcases l with _ | ⟨c, l'⟩
    · simp [stripRev]
    rcases l' with _ | ⟨c2, rest⟩
    · simp [stripRev]
    by_cases hc : c = '\t' ∧ c2 = ' '
    · obtain ⟨rfl, rfl⟩ := hc
      have hs : stripRev ('\t' :: ' ' :: rest) = stripRev rest := by
        simp [stripRev]
      rw [hs]
      exact ih rest (by simp at hl; omega) u
    · have hs : stripRev (c :: c2 :: rest) = c :: c2 :: rest := by
        simp [stripRev, hc]
      rw [hs]
      intro he
      exact hc ⟨by injection he, by injection he with h1 h2; injection h2⟩

theorem revPair_reverse (k : Nat) : (revPair k).reverse = pairRepeat k := by
  induction k with
  | zero => simp [revPair, pairRepeat]
  | succ k ih => simp [revPair, pairRepeat, ih]

theorem docTrim_decomp (t : String) :
    ∃ k, t.data = (docTrim t).data ++ pairRepeat k := by
  obtain ⟨k, hk⟩ := stripRev_decomp_aux t.data.reverse.length t.data.reverse (le_refl _)
  refine ⟨k, ?_⟩
  calc t.data = t.data.reverse.reverse := by simp
    _ = (revPair k ++ stripRev t.data.reverse).reverse := by rw [← hk]
    _ = (stripRev t.data.reverse).reverse ++ (revPair k).reverse := by
        rw [List.reverse_append]
    _ = (docTrim t).data ++ pairRepeat k := by rw [revPair_reverse]; rfl

theorem docTrim_no_trailing_pair (t : String) :
    ∀ u : List Char, (docTrim t).data ≠ u ++ [' ', '\t'] := by
  intro u h
  have hrev : stripRev t.data.reverse = '\t' :: ' ' :: u.reverse := by
    have hd : (docTrim t).data = (stripRev t.data.reverse).reverse := rfl
    rw [hd] at h
    calc stripRev t.data.reverse = (stripRev t.data.reverse).reverse.reverse := by simp
      _ = (u ++ [' ', '\t']).reverse := by rw [h]
      _ = '\t' :: ' ' :: u.reverse := by simp
  exact stripRev_no_pair t.data.reverse.length t.data.reverse (le_refl _) u.reverse hrev

/-- Claim C2 counterexample: a doc comment ending in a single trailing space is
stored unchanged by `Method::from_pest` (because the Rust code passes the
two-character STRING " \t" to `trim_end_matches`, which strips repeated
occurrences of that exact pair), while the claim demands that all
trailing spaces/tabs be removed. -/
theorem doc_trim_counterexample :
    Method.from_pest (.mk .method "x " [.mk .doc_comment "x " []])
        = some ⟨some "x ", ⟨"", []⟩, "", []⟩ ∧
    rtrimHWS "x " = "x" ∧ ("x " : String) ≠ "x" := by
  refine ⟨by decide, by decide, by decide⟩

/-- Claim C2 (amended): every doc comment captured by a builder (Method,
Interface, TypedefEnum, Variant, TypedefStruct, Field) stores the source
text with the maximal run of trailing repetitions of the two-character
sequence space-then-tab removed from the right end; every other
character, newlines included, is preserved. -/
theorem doc_trim_amended (t : String) :
    Method.from_pest (.mk .method t [.mk .doc_comment t []])
        = some ⟨some (docTrim t), ⟨"", []⟩, "", []⟩ ∧
    Interface.from_pest (.mk .interface t [.mk .doc_comment t []])
        = some ⟨some (docTrim t), "", "", none, [], [], [], []⟩ ∧
    TypedefEnum.from_pest (.mk .typedef_enum t [.mk .doc_comment t []])
        = some ⟨some (docTrim t), "", []⟩ ∧
    TypedefEnum.from_pest (.mk .typedef_enum t [.mk .variant t [.mk .doc_comment t []]])
        = some ⟨none, "", [⟨some (docTrim t), ""⟩]⟩ ∧
    TypedefStruct.from_pest (.mk .typedef_struct t [.mk .doc_comment t []])
        = some ⟨some (docTrim t), "", []⟩ ∧
    Field.from_pest (.mk .field t [.mk .doc_comment t []])
        = some ⟨some (docTrim t), "", ⟨"", []⟩⟩ ∧
    (∃ k, t.data = (docTrim t).data ++ pairRepeat k) ∧
    (∀ u : List Char, (docTrim t).data ≠ u ++ [' ', '\t']) :=
  ⟨rfl, rfl, rfl, rfl, rfl, rfl, docTrim_decomp t, docTrim_no_trailing_pair t⟩

theorem ty_isSome {n : Node} (h : n.rule = ._type) :
    (Ty.from_pest n).isSome = true := by
  unfold Ty.from_pest
  rw [if_pos h]
  rfl

theorem param_fold_isSome (ch : List Node) :
    ∀ r : Parameter, (ch.foldlM paramStep r).isSome = true := by
  induction ch with
  | nil =>
    intro r
    rfl
  | cons p ch ih =>
    intro r
    rw [List.foldlM_cons]
    have hp : (paramStep r p).isSome = true := by
      unfold paramStep
      cases hr : p.rule <;> simp
      exact ty_isSome hr
    obtain ⟨r', hr'⟩ := Option.isSome_iff_exists.mp hp
    rw [hr']
    exact ih r'

theorem param_isSome {n : Node} (h : n.rule = .parameter) :
    (Parameter.from_pest n).isSome = true := by
  unfold Parameter.from_pest
  rw [if_pos h]
  exact param_fold_isSome n.children _

theorem method_fold_isSome (ch : List Node) :
    ∀ r : Method, (ch.foldlM methodStep r).isSome = true := by
  induction ch with
  | nil =>
    intro r
    rfl
  | cons p ch ih =>
    intro r
    rw [List.foldlM_cons]
    have hp : (methodStep r p).isSome = true := by
      unfold methodStep
      cases hr : p.rule <;> simp
      · exact param_isSome hr
      · exact ty_isSome hr
    obtain ⟨r', hr'⟩ := Option.isSome_iff_exists.mp hp
    rw [hr']
    exact ih r'

theorem method_isSome {n : Node} (h : n.rule = .method) :
    (Method.from_pest n).isSome = true := by
  unfold Method.from_pest
  rw [if_pos h]
  exact method_fold_isSome n.children _

theorem te_isSome {n : Node} (h : n.rule = .typedef_enum) :
    (TypedefEnum.from_pest n).isSome = true := by
  unfold TypedefEnum.from_pest
  rw [if_pos h]
  rfl

theorem field_fold_isSome (ch : List Node) :
    ∀ r : Field, (ch.foldlM fieldStep r).isSome = true := by
  induction ch with
  | nil =>
    intro r
    rfl
  | cons p ch ih =>
    intro r
    rw [List.foldlM_cons]
    have hp : (fieldStep r p).isSome = true := by
      unfold fieldStep
      cases hr : p.rule <;> simp
      exact ty_isSome hr
    obtain ⟨r', hr'⟩ := Option.isSome_iff_exists.mp hp
    rw [hr']
    exact ih r'

theorem field_isSome {n : Node} (h : n.rule = .field) :
    (Field.from_pest n).isSome = true := by
  unfold Field.from_pest
  rw [if_pos h]
  exact field_fold_isSome n.children _

theorem ts_fold_isSome (ch : List Node) :
    ∀ r : TypedefStruct, (ch.foldlM tsStep r).isSome = true := by
  induction ch with
  | nil =>
    intro r
    rfl
  | cons p ch ih =>
    intro r
    rw [List.foldlM_cons]
    have hp : (tsStep r p).isSome = true := by
      unfold tsStep
      cases hr : p.rule <;> simp
      exact field_isSome hr
    obtain ⟨r', hr'⟩ := Option.isSome_iff_exists.mp hp
    rw [hr']
    exact ih r'

theorem ts_isSome {n : Node} (h : n.rule = .typedef_struct) :
    (TypedefStruct.from_pest n).isSome = true := by
  unfold TypedefStruct.from_pest
  rw [if_pos h]
  exact ts_fold_isSome n.children _

theorem iface_fold_isSome (ch : List Node) :
    ∀ r : Interface, (ch.foldlM ifaceStep r).isSome = true := by
  induction ch with
  | nil =>
    intro r
    rfl
  | cons p ch ih =>
    intro r
    rw [List.foldlM_cons]
    have hp : (ifaceStep r p).isSome = true := by
      unfold ifaceStep
      cases hr : p.rule <;> simp
      · exact method_isSome hr
      · exact te_isSome hr
      · exact ts_isSome hr
    obtain ⟨r', hr'⟩ := Option.isSome_iff_exists.mp hp
    rw [hr']
    exact ih r'

theorem iface_isSome {n : Node} (h : n.rule = .interface) :
    (Interface.from_pest n).isSome = true := by
  unfold Interface.from_pest
  rw [if_pos h]
  exact iface_fold_isSome n.children _

theorem doc_fold_isSome (ch : List Node) :
    ∀ r : Document, (ch.foldlM docStep r).isSome = true := by
  induction ch with
  | nil =>
    intro r
    rfl
  | cons p ch ih =>
    intro r
    rw [List.foldlM_cons]
    have hp : (docStep r p).isSome = true := by
      unfold docStep
      cases hr : p.rule <;> simp
      exact iface_isSome hr
    obtain ⟨r', hr'⟩ := Option.isSome_iff_exists.mp hp
    rw [hr']
    exact ih r'

theorem doc_isSome {n : Node} (h : n.rule = .document) :
    (Document.from_pest n).isSome = true := by
  unfold Document.from_pest
  rw [if_pos h]
  exact doc_fold_isSome n.children _

/-- Claim C8: every AST builder returns a value exactly when its node has the
expected kind: on any other kind the kind assertion fails and the build
aborts (`none`), and on the expected kind the builder never aborts on
account of its children's kinds (unrecognized child kinds are ignored). -/
theorem builders_assert_expected_kind (n : Node) :
    ((Ty.from_pest n).isSome = true ↔ n.rule = ._type) ∧
    ((Parameter.from_pest n).isSome = true ↔ n.rule = .parameter) ∧
    ((Method.from_pest n).isSome = true ↔ n.rule = .method) ∧
    ((TypedefEnum.from_pest n).isSome = true ↔ n.rule = .typedef_enum) ∧
    ((Field.from_pest n).isSome = true ↔ n.rule = .field) ∧
    ((TypedefStruct.from_pest n).isSome = true ↔ n.rule = .typedef_struct) ∧
    ((Interface.from_pest n).isSome = true ↔ n.rule = .interface) ∧
    ((Document.from_pest n).isSome = true ↔ n.rule = .document) := by
  refine ⟨⟨fun hs => ?_, ty_isSome⟩, ⟨fun hs => ?_, param_isSome⟩,
    ⟨fun hs => ?_, method_isSome⟩, ⟨fun hs => ?_, te_isSome⟩,
    ⟨fun hs => ?_, field_isSome⟩, ⟨fun hs => ?_, ts_isSome⟩,
    ⟨fun hs => ?_, iface_isSome⟩, ⟨fun hs => ?_, doc_isSome⟩⟩
  · by_contra hne
    unfold Ty.from_pest at hs
    rw [if_neg hne] at hs
    simp at hs
  · by_contra hne
    unfold Parameter.from_pest at hs
    rw [if_neg hne] at hs
    simp at hs
  · by_contra hne
    unfold Method.from_pest at hs
    rw [if_neg hne] at hs
    simp at hs
  · by_contra hne
    unfold TypedefEnum.from_pest at hs
    rw [if_neg hne] at hs
    simp at hs
  · by_contra hne
    unfold Field.from_pest at hs
    rw [if_neg hne] at hs
    simp at hs
  · by_contra hne
    unfold TypedefStruct.from_pest at hs
    rw [if_neg hne] at hs
    simp at hs
  · by_contra hne
    unfold Interface.from_pest at hs
    rw [if_neg hne] at hs
    simp at hs
  · by_contra hne
    unfold Document.from_pest at hs
    rw [if_neg hne] at hs
    simp at hs

theorem ty_render_append (ty : Ty) (u v : String) :
    ty.render (u ++ v) = u ++ ty.render v := by
  unfold Ty.render
  rw [render_fold_marks ty.modifiers (u ++ v), render_fold_marks ty.modifiers v]
  simp [String.append_assoc]

theorem param_render_append (p : Parameter) (u v : String) :
    p.render (u ++ v) = u ++ p.render v := by
  unfold Parameter.render
  cases hA : p.attributes.isEmpty
  · rw [if_neg (by simp), if_neg (by simp)]
    simp only [String.append_assoc]
    rw [ty_render_append]
  · rw [if_pos rfl, if_pos rfl]
    simp only [String.append_assoc]
    rw [ty_render_append]

theorem foldl_comma_append (l : List Parameter) :
    ∀ u v : String, l.foldl commaStep (u ++ v) = u ++ l.foldl commaStep v := by
  induction l with
  | nil =>
    intro u v
    rfl
  | cons p l ih =>
    intro u v
    rw [List.foldl_cons, List.foldl_cons]
    simp only [commaStep, String.append_assoc]
    rw [param_render_append, ih]

theorem method_render_append (m : Method) (u v : String) :
    m.render (u ++ v) = u ++ m.render v := by
  unfold Method.render
  simp only [String.append_assoc]
  rw [foldl_comma_append m.parameters]
  simp only [String.append_assoc]
  rw [ty_render_append]
  simp [String.append_assoc]

theorem foldl_variant_append (l : List Variant) :
    ∀ u v : String, l.foldl variantStep (u ++ v) = u ++ l.foldl variantStep v := by
  induction l with
  | nil =>
    intro u v
    rfl
  | cons x l ih =>
    intro u v
    rw [List.foldl_cons, List.foldl_cons]
    simp only [variantStep, String.append_assoc]
    rw [ih]

theorem te_render_append (e : TypedefEnum) (u v : String) :
    e.render (u ++ v) = u ++ e.render v := by
  unfold TypedefEnum.render
  simp only [String.append_assoc]
  rw [foldl_variant_append e.variants]
  simp [String.append_assoc]

theorem foldl_fieldline_append (l : List Field) :
    ∀ u v : String, l.foldl fieldLineStep (u ++ v) = u ++ l.foldl fieldLineStep v := by
  induction l with
  | nil =>
    intro u v
    rfl
  | cons x l ih =>
    intro u v
    rw [List.foldl_cons, List.foldl_cons]
    simp only [fieldLineStep, String.append_assoc]
    rw [ty_render_append]
    simp only [String.append_assoc]
    rw [ih]

theorem ts_render_append (t : TypedefStruct) (u v : String) :
    t.render (u ++ v) = u ++ t.render v := by
  unfold TypedefStruct.render
  simp only [String.append_assoc]
  rw [foldl_fieldline_append t.fields]
  simp [String.append_assoc]

theorem foldl_sepStep_append {α : Type} (g : α → String → String)
    (hg : ∀ (x : α) (u v : String), g x (u ++ v) = u ++ g x v) (l : List α) :
    ∀ (b : Bool) (u v : String),
      (l.foldl (sepStep g) (b, u ++ v)).2 = u ++ (l.foldl (sepStep g) (b, v)).2 := by
  induction l with
  | nil =>
    intro b u v
    rfl
  | cons x l ih =>
    intro b u v
    rw [List.foldl_cons, List.foldl_cons]
    cases b
    · show (l.foldl (sepStep g) (false, g x ((u ++ v) ++ "\n"))).2
        = u ++ (l.foldl (sepStep g) (false, g x (v ++ "\n"))).2
      rw [String.append_assoc, hg x u (v ++ "\n"), ih]
    · show (l.foldl (sepStep g) (false, g x (u ++ v))).2
        = u ++ (l.foldl (sepStep g) (false, g x v)).2
      rw [hg x u v, ih]

theorem foldl_blank_append {α : Type} (g : α → String → String)
    (hg : ∀ (x : α) (u v : String), g x (u ++ v) = u ++ g x v) (l : List α) :
    ∀ u v : String,
      l.foldl (blankLineStep g) (u ++ v) = u ++ l.foldl (blankLineStep g) v := by
  induction l with
  | nil =>
    intro u v
    rfl
  | cons x l ih =>
    intro u v
    rw [List.foldl_cons, List.foldl_cons]
    simp only [blankLineStep, String.append_assoc]
    rw [hg x u, ih]

theorem iface_render_append (i : Interface) (u v : String) :
    i.render (u ++ v) = u ++ i.render v := by
  unfold Interface.render
  simp only [String.append_assoc]
  rw [foldl_sepStep_append Method.render method_render_append i.methods]
  simp only [String.append_assoc]
  rw [foldl_blank_append TypedefEnum.render te_render_append i.enums]
  rw [foldl_blank_append TypedefStruct.render ts_render_append i.structs]

theorem doc_render_append (d : Document) (u v : String) :
    d.render (u ++ v) = u ++ d.render v := by
  unfold Document.render
  exact foldl_sepStep_append Interface.render iface_render_append d.interfaces true u v

/-- Claim C9: rendering is a pure, deterministic function of the AST: the text
a render call appends to the output sink depends only on the Document
(appending over any prior sink state), so two invocations on the same
Document value produce byte-identical output. -/
theorem render_pure_deterministic :
    (∀ (d : Document) (u v : String), d.render (u ++ v) = u ++ d.render v) ∧
    (∀ (d : Document) (acc : String), d.render acc = acc ++ d.render "") := by
  refine ⟨doc_render_append, ?_⟩
  intro d acc
  calc d.render acc = d.render (acc ++ "") := by rw [String.append_empty]
    _ = acc ++ d.render "" := doc_render_append d acc ""

/-- Claim C10: the free-form attributes stored on an Interface are never
consulted by the renderer: two Interface values differing only in their
attributes list render identically. -/
theorem interface_attributes_unused (i : Interface) (a₁ a₂ : List String)
    (acc : String) :
    ({ i with attributes := a₁ } : Interface).render acc
      = ({ i with attributes := a₂ } : Interface).render acc := by
  cases i
  rfl

end Idl2rs
